import Mathlib

set_option maxRecDepth 4000
set_option linter.unusedVariables false
set_option linter.unusedSectionVars false

/- Shallow embedding of the longhair-rs wrapper (src/lib.rs) over the longhair
   Cauchy-256 erasure code.  Bytes are modelled as natural numbers below 256;
   byte blocks as lists of bytes.  The Rust wrapper panics on contract
   violations; each panic site is modelled as a distinct error value, and every
   fallible operation returns an Except value.  The native C++ transforms
   (cauchy_256_encode, cauchy_256_decode, _cauchy_256_init) are not under src/;
   they are modelled from the spec, each marked as such in its doc comment. -/

/-- Modelled from the spec: GF(256) multiply-by-x step for a fixed irreducible
polynomial (here x^8+x^4+x^3+x^2+1, value 0x11D; the spec fixes only that some
irreducible polynomial is used).  The native gf256 table builder is not under src/. -/
def gfXtimes (a : ℕ) : ℕ :=
  if 2 * a < 256 then 2 * a else (2 * a) ^^^ 0x11D

/-- Modelled from the spec: the 256-entry exponential table for the field
generator 2; entry i holds the i-th power of the generator. -/
def gfExpT (i : ℕ) : ℕ := gfXtimes^[i] 1

/-- Modelled from the spec: the discrete-log table, the inverse lookup of the
exponential table on nonzero bytes. -/
def gfLogT (a : ℕ) : ℕ := ((List.range 255).find? (fun i => gfExpT i = a)).getD 0

/-- Modelled from the spec: GF(256) multiplication, 0 if either operand is 0,
otherwise through the log/exp tables. -/
def gfMul (a b : ℕ) : ℕ :=
  if a = 0 ∨ b = 0 then 0 else gfExpT ((gfLogT a + gfLogT b) % 255)

/-- Modelled from the spec: GF(256) inverse through the tables; the native code
fails on 0 (DivideByZero), the model returns 0 there, a value never consulted on
the valid paths. -/
def gfInvT (a : ℕ) : ℕ := if a = 0 then 0 else gfExpT ((255 - gfLogT a) % 255)

/-- Modelled from the spec: the entry of the (m x k) Cauchy coding matrix for
recovery row i and data column j: the GF(256) inverse of x_i xor y_j, where the
data columns take the field elements 0..k-1 and the recovery rows take the
elements k..k+m-1 (the spec fixes only that two disjoint index sets are chosen
by a fixed deterministic rule). -/
def cauchyEntry (k i j : ℕ) : ℕ := gfInvT ((k + i) ^^^ j)

/-- Modelled from the spec: the native cauchy_256_encode transform.  Returns the
status (0 for success; the spec treats failure as unreachable for validated
inputs) and the m recovery blocks, each byte of recovery row i the GF(256)
linear combination of the data blocks' bytes at that position with the Cauchy
matrix coefficients.  The data blocks are read-only; the output buffers are
fully overwritten, so the result does not depend on their prior contents. -/
def cauchy_256_encode (k m : ℕ) (data : List (List ℕ)) (block_bytes : ℕ) :
    ℕ × List (List ℕ) :=
  (0, (List.range m).map fun i =>
    (List.range block_bytes).map fun p =>
      (List.range k).foldl
        (fun acc j => acc ^^^ gfMul (cauchyEntry k i j) ((data.getD j []).getD p 0)) 0)

/-- Augmented row of the decode linear system: k GF(256) coefficients and the
right-hand-side bytes. -/
structure GJRow where
  co : List ℕ
  rhs : List ℕ

/-- Scale a whole augmented row by a GF(256) factor. -/
def rowScale (s : ℕ) (r : GJRow) : GJRow :=
  { co := r.co.map (fun a => gfMul s a), rhs := r.rhs.map (fun a => gfMul s a) }

/-- Eliminate column c from row r using the normalized pivot row: add (xor) the
pivot row scaled by r's entry in column c. -/
def rowElim (c : ℕ) (piv r : GJRow) : GJRow :=
  let f := r.co.getD c 0
  { co := r.co.zipWith (fun a b => a ^^^ gfMul f b) piv.co,
    rhs := r.rhs.zipWith (fun a b => a ^^^ gfMul f b) piv.rhs }

/-- Find the first row with a nonzero coefficient in column c, returning it and
the remaining rows in order; none when the column has no pivot (singular system). -/
def findPivot (c : ℕ) : List GJRow → Option (GJRow × List GJRow)
  | [] => none
  | r :: rest =>
    if r.co.getD c 0 ≠ 0 then some (r, rest)
    else match findPivot c rest with
      | none => none
      | some (p, rest2) => some (p, r :: rest2)

/-- Gauss-Jordan elimination loop over the columns: pick a pivot for column c,
normalize it, eliminate the column from every other row, and continue; the fuel
argument is the number of rows still to be consumed. -/
def gjLoop : ℕ → ℕ → List GJRow → List GJRow → Option (List GJRow)
  | 0, _, done, _ => some done
  | fuel + 1, c, done, todo =>
    match findPivot c todo with
    | none => none
    | some (p, rest) =>
      let pn := rowScale (gfInvT (p.co.getD c 0)) p
      gjLoop fuel (c + 1) (done.map (rowElim c pn) ++ [pn]) (rest.map (rowElim c pn))

/-- Identity coefficient row for data column j of a k-column system. -/
def unitRow (k j : ℕ) : List ℕ := (List.range k).map fun c => if c = j then 1 else 0

/-- Cauchy coefficient row for recovery row i of a k-column system. -/
def cauchyRowL (k i : ℕ) : List ℕ := (List.range k).map fun j => cauchyEntry k i j

/-- Augmented system row contributed by one supplied block: an identity row when
its tag names a data row, a Cauchy row when its tag names a recovery row. -/
def decodeRowOf (k : ℕ) (b : ℕ × List ℕ) : GJRow :=
  if b.1 < k then { co := unitRow k b.1, rhs := b.2 }
  else { co := cauchyRowL k (b.1 - k), rhs := b.2 }

/-- Data-row indices in 0..k not present among the supplied tags, ascending. -/
def missingRows (k : ℕ) (tags : List ℕ) : List ℕ :=
  (List.range k).filter (fun j => !(tags.contains j))

/-- Distribute the solved data rows back over the supplied blocks: blocks tagged
as data rows keep their content and tag; blocks that held recovery rows receive
the missing data rows in ascending order, tag rewritten accordingly. -/
def assignOut (k : ℕ) (sol : List (List ℕ)) : List (ℕ × List ℕ) → List ℕ → List (ℕ × List ℕ)
  | [], _ => []
  | b :: rest, miss =>
    if b.1 < k then (b.1, b.2) :: assignOut k sol rest miss
    else match miss with
      | [] => (b.1, b.2) :: assignOut k sol rest []
      | r :: miss2 => (r, sol.getD r []) :: assignOut k sol rest miss2

/-- Modelled from the spec: the native cauchy_256_decode transform, erasure
decoding by Gaussian elimination with partial pivoting over GF(256).  Returns
the status (0 on success, nonzero when no pivot can be found, i.e. the system is
singular) and the blocks with reconstructed contents and rewritten row tags. -/
def cauchy_256_decode (k m : ℕ) (blocks : List (ℕ × List ℕ)) (block_bytes : ℕ) :
    ℕ × List (ℕ × List ℕ) :=
  match gjLoop blocks.length 0 [] (blocks.map (decodeRowOf k)) with
  | none => (1, blocks)
  | some done =>
    let sol := (List.range k).map fun c => (done.getD c ⟨[], []⟩).rhs
    (0, assignOut k sol blocks (missingRows k (blocks.map (fun b => b.1))))

/-- Session state of the wrapper (struct Cauchy in src/lib.rs).  The three raw
pointer scratch vectors are modelled by the byte blocks the pointers refer to. -/
structure CauchySession where
  max_k : ℕ
  block_ptrs : List (List ℕ)
  recovery_block_ptrs : List (List ℕ)
  native_block_ptrs : List (ℕ × List ℕ)
  deriving DecidableEq

/-- Panic sites of Cauchy::encode, in source order: the block-count bound, the
same-size check, the unwrap of the absent first block length, the
zero-or-unaligned length check, and the native status check. -/
inductive EncodeError
  | blockCountExceeded
  | sizeMismatch
  | noBlocks
  | badBlockSize
  | nativeEncodeFailure
  deriving DecidableEq

/-- Panic sites of Cauchy::decode, in source order: the k bound, the
blocks-length check, the same-size check, the row-index bound, the unwrap of the
absent first block length, the zero-or-unaligned length check, and the native
status check. -/
inductive DecodeError
  | kExceedsMaxK
  | blockCountMismatch
  | sizeMismatch
  | invalidRowIndex
  | noBlocks
  | badBlockSize
  | nativeDecodeFailure
  deriving DecidableEq

/-- First loop of Cauchy::encode: record the first observed block length, reject
any later block whose length differs, and collect the data pointers (modelled by
the pointed-to blocks). -/
def encodeScan : Option ℕ → List (List ℕ) → Except EncodeError (Option ℕ × List (List ℕ))
  | opt, [] => .ok (opt, [])
  | opt, b :: rest =>
    match opt with
    | some bb =>
      if b.length ≠ bb then .error .sizeMismatch
      else match encodeScan (some bb) rest with
        | .error e => .error e
        | .ok (o, l) => .ok (o, b :: l)
    | none =>
      match encodeScan (some b.length) rest with
      | .error e => .error e
      | .ok (o, l) => .ok (o, b :: l)

/-- Second loop of Cauchy::encode: each recovery buffer must have the common
block length; collect the output pointers (modelled by the buffers). -/
def recoveryScan (bb : ℕ) : List (List ℕ) → Except EncodeError (List (List ℕ))
  | [] => .ok []
  | r :: rest =>
    if bb ≠ r.length then .error .sizeMismatch
    else match recoveryScan bb rest with
      | .error e => .error e
      | .ok l => .ok (r :: l)

/-- Validation and scratch stage of Cauchy::encode: everything the source does
before the unsafe native call.  On success it returns the session with refreshed
scratch and the common block length; any error here means the native transform
is never invoked.  On a panic the partially refilled scratch is discarded, which
is unobservable to callers. -/
def CauchySession.encodeChecked (s : CauchySession) (blocks recovery_blocks : List (List ℕ)) :
    Except EncodeError (CauchySession × ℕ) :=
  if blocks.length > s.max_k then .error .blockCountExceeded
  else match encodeScan none blocks with
    | .error e => .error e
    | .ok (none, _) => .error .noBlocks
    | .ok (some block_bytes, ptrs) =>
      if block_bytes = 0 ∨ block_bytes % 8 ≠ 0 then .error .badBlockSize
      else match recoveryScan block_bytes recovery_blocks with
        | .error e => .error e
        | .ok rptrs =>
          .ok ({ s with block_ptrs := ptrs, recovery_block_ptrs := rptrs }, block_bytes)

/-- Cauchy::encode: validation followed by the native encode transform.  On
success it returns the updated session, the data blocks after the call (the
native transform is read-only on them), and the freshly written recovery
blocks. -/
def CauchySession.encode (s : CauchySession) (blocks recovery_blocks : List (List ℕ)) :
    Except EncodeError (CauchySession × List (List ℕ) × List (List ℕ)) :=
  match s.encodeChecked blocks recovery_blocks with
  | .error e => .error e
  | .ok (s2, block_bytes) =>
    let r := cauchy_256_encode blocks.length recovery_blocks.length blocks block_bytes
    if r.1 ≠ 0 then .error .nativeEncodeFailure
    else .ok (s2, blocks, r.2)

/-- Caller-visible tagged block for decode (the AsBlock trait: a row index and
mutable data). -/
structure TBlock where
  index : ℕ
  data : List ℕ
  deriving DecidableEq

/-- Loop of Cauchy::decode: for each block, first the same-size check against
the first observed length, then the row-index bound; the native Block rows are
collected with the index truncated to a byte (the index-as-u8 cast). -/
def decodeScan (k m : ℕ) : Option ℕ → List TBlock → Except DecodeError (Option ℕ × List (ℕ × List ℕ))
  | opt, [] => .ok (opt, [])
  | opt, b :: rest =>
    match opt with
    | some bb =>
      if b.data.length ≠ bb then .error .sizeMismatch
      else if b.index ≥ k + m then .error .invalidRowIndex
      else match decodeScan k m (some bb) rest with
        | .error e => .error e
        | .ok (o, l) => .ok (o, (b.index % 256, b.data) :: l)
    | none =>
      if b.index ≥ k + m then .error .invalidRowIndex
      else match decodeScan k m (some b.data.length) rest with
        | .error e => .error e
        | .ok (o, l) => .ok (o, (b.index % 256, b.data) :: l)

/-- Validation and scratch stage of Cauchy::decode: everything the source does
before the unsafe native call.  Any error here means the native transform is
never invoked. -/
def CauchySession.decodeChecked (s : CauchySession) (k m : ℕ) (blocks : List TBlock) :
    Except DecodeError (CauchySession × ℕ) :=
  if k > s.max_k then .error .kExceedsMaxK
  else if blocks.length ≠ k then .error .blockCountMismatch
  else match decodeScan k m none blocks with
    | .error e => .error e
    | .ok (none, _) => .error .noBlocks
    | .ok (some block_bytes, natives) =>
      if block_bytes = 0 ∨ block_bytes % 8 ≠ 0 then .error .badBlockSize
      else .ok ({ s with native_block_ptrs := natives }, block_bytes)

/-- Cauchy::decode: validation, the native decode transform, then the loop that
copies each native row tag back into the caller's block (the data was mutated in
place through the shared buffers, so the output blocks carry the native data). -/
def CauchySession.decode (s : CauchySession) (k m : ℕ) (blocks : List TBlock) :
    Except DecodeError (CauchySession × List TBlock) :=
  match s.decodeChecked k m blocks with
  | .error e => .error e
  | .ok (s2, block_bytes) =>
    let r := cauchy_256_decode k m s2.native_block_ptrs block_bytes
    if r.1 ≠ 0 then .error .nativeDecodeFailure
    else .ok (s2, r.2.map fun nb => { index := nb.1, data := nb.2 })

/-- Version constant from bindings.rs. -/
def CAUCHY_256_VERSION : ℕ := 2

/-- Modelled from the spec: _cauchy_256_init builds the process-wide field
tables; it is idempotent and fails only on a version mismatch (0 is success). -/
def cauchy_256_init (expected_version : ℕ) : ℕ :=
  if expected_version = CAUCHY_256_VERSION then 0 else 1

/-- Process-wide state of the once guard (static CAUCHY_INITIALIZED): whether
the tables have been built, and how many times the native builder has run. -/
structure ProcState where
  tablesBuilt : Bool
  initCalls : ℕ
  deriving DecidableEq

/-- State of a process before any session has been constructed. -/
def ProcState.fresh : ProcState := { tablesBuilt := false, initCalls := 0 }

/-- Panic sites of Cauchy::new: the max_k bound and the native initialization
status check inside the once closure. -/
inductive NewError
  | maxKTooLarge
  | initFailed
  deriving DecidableEq

/-- Cauchy::new: reject max_k > 256, then run the native initialization under
the once guard (the closure runs only when the tables are not yet built), and
return the fresh session with empty scratch. -/
def CauchySession.new (p : ProcState) (max_k : ℕ) : Except NewError (ProcState × CauchySession) :=
  if max_k > 256 then .error .maxKTooLarge
  else
    let s : CauchySession :=
      { max_k := max_k, block_ptrs := [], recovery_block_ptrs := [], native_block_ptrs := [] }
    if p.tablesBuilt then .ok (p, s)
    else if cauchy_256_init CAUCHY_256_VERSION ≠ 0 then .error .initFailed
    else .ok ({ tablesBuilt := true, initCalls := p.initCalls + 1 }, s)

/-- Run a sequence of Cauchy::new calls, threading the process state (a failed
construction leaves the process state unchanged). -/
def runNews : ProcState → List ℕ → ProcState
  | p, [] => p
  | p, mk :: rest =>
    match CauchySession.new p mk with
    | .error _ => runNews p rest
    | .ok (p2, _) => runNews p2 rest

/- Characterizations of the validation loops. -/

/-- After the first block length is recorded, the first encode loop accepts a
list of blocks that all carry that length and collects them unchanged. -/
theorem encodeScan_some_ok (bb : ℕ) (l : List (List ℕ)) (h : ∀ b ∈ l, b.length = bb) :
    encodeScan (some bb) l = .ok (some bb, l) := by
  induction l with
  | nil => simp [encodeScan]
  | cons b rest ih =>
    have hb : b.length = bb := h b (List.mem_cons_self b rest)
    have hrest : ∀ x ∈ rest, x.length = bb := fun x hx => h x (List.mem_cons_of_mem b hx)
    simp [encodeScan, hb, ih hrest]

/-- After the first block length is recorded, the first encode loop rejects a
list containing a block of a different length with the same-size panic. -/
theorem encodeScan_some_err (bb : ℕ) (l : List (List ℕ)) (h : ¬ ∀ b ∈ l, b.length = bb) :
    encodeScan (some bb) l = .error .sizeMismatch := by
  induction l with
  | nil => exact absurd (by simp) h
  | cons b rest ih =>
    by_cases hb : b.length = bb
    · have hrest : ¬ ∀ x ∈ rest, x.length = bb := by
        intro hall
        exact h (by
          intro x hx
          rcases List.mem_cons.mp hx with h1 | h2
          · rw [h1]; exact hb
          · exact hall x h2)
      simp [encodeScan, hb, ih hrest]
    · simp [encodeScan, hb]

/-- The first encode loop on a nonempty list whose blocks all share the head's
length records that length and collects the blocks unchanged. -/
theorem encodeScan_none_ok (b : List ℕ) (rest : List (List ℕ))
    (h : ∀ x ∈ rest, x.length = b.length) :
    encodeScan none (b :: rest) = .ok (some b.length, b :: rest) := by
  simp [encodeScan, encodeScan_some_ok b.length rest h]

/-- The first encode loop on a nonempty list containing a block whose length
differs from the head's rejects with the same-size panic. -/
theorem encodeScan_none_err (b : List ℕ) (rest : List (List ℕ))
    (h : ¬ ∀ x ∈ rest, x.length = b.length) :
    encodeScan none (b :: rest) = .error .sizeMismatch := by
  simp [encodeScan, encodeScan_some_err b.length rest h]

/-- The recovery loop accepts buffers that all carry the common length and
collects them unchanged. -/
theorem recoveryScan_ok (bb : ℕ) (l : List (List ℕ)) (h : ∀ r ∈ l, r.length = bb) :
    recoveryScan bb l = .ok l := by
  induction l with
  | nil => simp [recoveryScan]
  | cons r rest ih =>
    have hr : r.length = bb := h r (List.mem_cons_self r rest)
    have hrest : ∀ x ∈ rest, x.length = bb := fun x hx => h x (List.mem_cons_of_mem r hx)
    simp [recoveryScan, hr, ih hrest]

/-- The recovery loop rejects a list containing a buffer of a different length
with the same-size panic. -/
theorem recoveryScan_err (bb : ℕ) (l : List (List ℕ)) (h : ¬ ∀ r ∈ l, r.length = bb) :
    recoveryScan bb l = .error .sizeMismatch := by
  induction l with
  | nil => exact absurd (by simp) h
  | cons r rest ih =>
    by_cases hr : r.length = bb
    · have hrest : ¬ ∀ x ∈ rest, x.length = bb := by
        intro hall
        exact h (by
          intro x hx
          rcases List.mem_cons.mp hx with h1 | h2
          · rw [h1]; exact hr
          · exact hall x h2)
      simp [recoveryScan, hr, ih hrest]
    · have hr2 : ¬ (bb = r.length) := fun hc => hr hc.symm
      simp [recoveryScan, hr2]

/-- An error in the validation stage of encode propagates: the wrapper reports
it and the native transform is never reached. -/
theorem encode_error_of_checked (s : CauchySession) (blocks recovery_blocks : List (List ℕ))
    (e : EncodeError) (h : s.encodeChecked blocks recovery_blocks = .error e) :
    s.encode blocks recovery_blocks = .error e := by
  unfold CauchySession.encode
  rw [h]

/-- An error in the validation stage of decode propagates: the wrapper reports
it and the native transform is never reached. -/
theorem decode_error_of_checked (s : CauchySession) (k m : ℕ) (blocks : List TBlock)
    (e : DecodeError) (h : s.decodeChecked k m blocks = .error e) :
    s.decode k m blocks = .error e := by
  unfold CauchySession.decode
  rw [h]

/-- With the common length recorded and every block carrying it, the decode loop
accepts blocks whose tags are all within bounds, collecting the truncated tags
and the data. -/
theorem decodeScan_some_ok (k m bb : ℕ) (l : List TBlock)
    (hL : ∀ b ∈ l, b.data.length = bb) (ht : ∀ b ∈ l, b.index < k + m) :
    decodeScan k m (some bb) l = .ok (some bb, l.map (fun b => (b.index % 256, b.data))) := by
  induction l with
  | nil => simp [decodeScan]
  | cons b rest ih =>
    have hb : b.data.length = bb := hL b (List.mem_cons_self b rest)
    have hi : b.index < k + m := ht b (List.mem_cons_self b rest)
    have hL2 : ∀ x ∈ rest, x.data.length = bb := fun x hx => hL x (List.mem_cons_of_mem b hx)
    have ht2 : ∀ x ∈ rest, x.index < k + m := fun x hx => ht x (List.mem_cons_of_mem b hx)
    simp [decodeScan, hb, Nat.not_le.mpr hi, ih hL2 ht2]

/-- With every block carrying the recorded length, the decode loop rejects a
list containing an out-of-range tag with the row-index panic. -/
theorem decodeScan_some_row_err (k m bb : ℕ) (l : List TBlock)
    (hL : ∀ b ∈ l, b.data.length = bb) (ht : ∃ b ∈ l, k + m ≤ b.index) :
    decodeScan k m (some bb) l = .error .invalidRowIndex := by
  induction l with
  | nil => simp at ht
  | cons b rest ih =>
    have hb : b.data.length = bb := hL b (List.mem_cons_self b rest)
    have hL2 : ∀ x ∈ rest, x.data.length = bb := fun x hx => hL x (List.mem_cons_of_mem b hx)
    by_cases hi : b.index < k + m
    · have ht2 : ∃ x ∈ rest, k + m ≤ x.index := by
        rcases ht with ⟨x, hx, hxi⟩
        rcases List.mem_cons.mp hx with h1 | h2
        · rw [h1] at hxi; exact absurd hxi (Nat.not_le.mpr hi)
        · exact ⟨x, h2, hxi⟩
      simp [decodeScan, hb, Nat.not_le.mpr hi, ih hL2 ht2]
    · simp [decodeScan, hb, Nat.le_of_not_lt hi]

/-- The decode loop never reports the row-index error when every tag is within
bounds, whatever the recorded length. -/
theorem decodeScan_no_row_err (k m : ℕ) (l : List TBlock)
    (ht : ∀ b ∈ l, b.index < k + m) :
    ∀ opt, decodeScan k m opt l ≠ .error .invalidRowIndex := by
  induction l with
  | nil => intro opt; simp [decodeScan]
  | cons b rest ih =>
    intro opt
    have hb : b.index < k + m := ht b (List.mem_cons_self b rest)
    have ht2 : ∀ x ∈ rest, x.index < k + m := fun x hx => ht x (List.mem_cons_of_mem b hx)
    match opt with
    | some bb =>
      by_cases hlen : b.data.length = bb
      · cases hrec : decodeScan k m (some bb) rest with
        | error e =>
          have : e ≠ .invalidRowIndex := by
            intro hcontra
            rw [hcontra] at hrec
            exact ih ht2 (some bb) hrec
          simp [decodeScan, hlen, Nat.not_le.mpr hb, hrec, this]
        | ok v => simp [decodeScan, hlen, Nat.not_le.mpr hb, hrec]
      · simp [decodeScan, hlen]
    | none =>
      cases hrec : decodeScan k m (some b.data.length) rest with
      | error e =>
        have : e ≠ .invalidRowIndex := by
          intro hcontra
          rw [hcontra] at hrec
          exact ih ht2 (some b.data.length) hrec
        simp [decodeScan, Nat.not_le.mpr hb, hrec, this]
      | ok v => simp [decodeScan, Nat.not_le.mpr hb, hrec]

/-- With every tag within bounds, the decode loop rejects a list containing a
block whose length differs from the recorded one with the same-size panic. -/
theorem decodeScan_some_size_err (k m bb : ℕ) (l : List TBlock)
    (ht : ∀ b ∈ l, b.index < k + m) (hbad : ¬ ∀ b ∈ l, b.data.length = bb) :
    decodeScan k m (some bb) l = .error .sizeMismatch := by
  induction l with
  | nil => exact absurd (by simp) hbad
  | cons b rest ih =>
    have hb : b.index < k + m := ht b (List.mem_cons_self b rest)
    have ht2 : ∀ x ∈ rest, x.index < k + m := fun x hx => ht x (List.mem_cons_of_mem b hx)
    by_cases hlen : b.data.length = bb
    · have hbad2 : ¬ ∀ x ∈ rest, x.data.length = bb := by
        intro hall
        exact hbad (by
          intro x hx
          rcases List.mem_cons.mp hx with h1 | h2
          · rw [h1]; exact hlen
          · exact hall x h2)
      simp [decodeScan, hlen, Nat.not_le.mpr hb, ih ht2 hbad2]
    · simp [decodeScan, hlen]

/- Assembly lemmas for the checked stages. -/

/-- A validation-loop error surfaces from encode's checked stage when the count
check passes. -/
theorem encodeChecked_scan_err (s : CauchySession) (blocks recovery_blocks : List (List ℕ))
    (hcnt : blocks.length ≤ s.max_k) (e : EncodeError)
    (he : encodeScan none blocks = .error e) :
    s.encodeChecked blocks recovery_blocks = .error e := by
  simp [CauchySession.encodeChecked, Nat.not_lt.mpr hcnt, he]

/-- The zero-or-unaligned length panic surfaces from encode's checked stage. -/
theorem encodeChecked_badsize (s : CauchySession) (blocks recovery_blocks : List (List ℕ))
    (bb : ℕ) (ptrs : List (List ℕ)) (hcnt : blocks.length ≤ s.max_k)
    (hscan : encodeScan none blocks = .ok (some bb, ptrs)) (hbs : bb = 0 ∨ bb % 8 ≠ 0) :
    s.encodeChecked blocks recovery_blocks = .error .badBlockSize := by
  simp [CauchySession.encodeChecked, Nat.not_lt.mpr hcnt, hscan, hbs]

/-- A recovery-loop error surfaces from encode's checked stage when the earlier
checks pass. -/
theorem encodeChecked_recovery_err (s : CauchySession) (blocks recovery_blocks : List (List ℕ))
    (bb : ℕ) (ptrs : List (List ℕ)) (hcnt : blocks.length ≤ s.max_k)
    (hscan : encodeScan none blocks = .ok (some bb, ptrs)) (hbs : ¬ (bb = 0 ∨ bb % 8 ≠ 0))
    (e : EncodeError) (hrec : recoveryScan bb recovery_blocks = .error e) :
    s.encodeChecked blocks recovery_blocks = .error e := by
  simp [CauchySession.encodeChecked, Nat.not_lt.mpr hcnt, hscan, hbs, hrec]

/-- The success path of encode's checked stage. -/
theorem encodeChecked_ok (s : CauchySession) (blocks recovery_blocks : List (List ℕ))
    (bb : ℕ) (ptrs : List (List ℕ)) (hcnt : blocks.length ≤ s.max_k)
    (hscan : encodeScan none blocks = .ok (some bb, ptrs)) (hbs : ¬ (bb = 0 ∨ bb % 8 ≠ 0))
    (rptrs : List (List ℕ)) (hrec : recoveryScan bb recovery_blocks = .ok rptrs) :
    s.encodeChecked blocks recovery_blocks =
      .ok ({ s with block_ptrs := ptrs, recovery_block_ptrs := rptrs }, bb) := by
  simp [CauchySession.encodeChecked, Nat.not_lt.mpr hcnt, hscan, hbs, hrec]

/-- A validation-loop error surfaces from decode's checked stage when the count
checks pass. -/
theorem decodeChecked_scan_err (s : CauchySession) (k m : ℕ) (blocks : List TBlock)
    (hk : k ≤ s.max_k) (hcount : blocks.length = k) (e : DecodeError)
    (he : decodeScan k m none blocks = .error e) :
    s.decodeChecked k m blocks = .error e := by
  simp [CauchySession.decodeChecked, Nat.not_lt.mpr hk, hcount, he]

/-- The zero-or-unaligned length panic surfaces from decode's checked stage. -/
theorem decodeChecked_badsize (s : CauchySession) (k m : ℕ) (blocks : List TBlock)
    (bb : ℕ) (natives : List (ℕ × List ℕ)) (hk : k ≤ s.max_k) (hcount : blocks.length = k)
    (hscan : decodeScan k m none blocks = .ok (some bb, natives))
    (hbs : bb = 0 ∨ bb % 8 ≠ 0) :
    s.decodeChecked k m blocks = .error .badBlockSize := by
  simp [CauchySession.decodeChecked, Nat.not_lt.mpr hk, hcount, hscan, hbs]

/-- The success path of decode's checked stage. -/
theorem decodeChecked_ok (s : CauchySession) (k m : ℕ) (blocks : List TBlock)
    (bb : ℕ) (natives : List (ℕ × List ℕ)) (hk : k ≤ s.max_k) (hcount : blocks.length = k)
    (hscan : decodeScan k m none blocks = .ok (some bb, natives))
    (hbs : ¬ (bb = 0 ∨ bb % 8 ≠ 0)) :
    s.decodeChecked k m blocks = .ok ({ s with native_block_ptrs := natives }, bb) := by
  simp [CauchySession.decodeChecked, Nat.not_lt.mpr hk, hcount, hscan, hbs]

/- Claims. -/

/-- C2 counterexample: encoding with an empty data-block slice fails through the
unwrap of the absent block length (block_bytes_opt is still None after the empty
loop), which is not the block-count contract error; the count check (num blocks
must be at most max_k) passes for zero blocks. -/
theorem c2_empty_encode_not_count_error :
    CauchySession.encode ⟨2, [], [], []⟩ [] [] = .error .noBlocks ∧
      EncodeError.noBlocks ≠ EncodeError.blockCountExceeded := by
  exact ⟨rfl, by decide⟩

/-- C2 (amended): for every session, calling encode with an empty data-block
slice fails before the native encode transform is invoked, through the panic
inside the unwrap of the absent block size, not through a block-count contract
error. -/
theorem c2_empty_encode_rejected (s : CauchySession) (recovery_blocks : List (List ℕ)) :
    s.encodeChecked [] recovery_blocks = .error .noBlocks ∧
      s.encode [] recovery_blocks = .error .noBlocks := by
  have h : s.encodeChecked [] recovery_blocks = .error .noBlocks := by
    simp [CauchySession.encodeChecked, encodeScan]
  exact ⟨h, encode_error_of_checked _ _ _ _ h⟩

/-- C5: a decode call whose block count differs from k, or whose k exceeds the
session bound, fails with one of the two block-count contract errors, in the
validation stage, before the native decode transform is invoked. -/
theorem c5_decode_count_rejection (s : CauchySession) (k m : ℕ) (blocks : List TBlock)
    (h : blocks.length ≠ k ∨ s.max_k < k) :
    ∃ e, (e = DecodeError.kExceedsMaxK ∨ e = DecodeError.blockCountMismatch) ∧
      s.decodeChecked k m blocks = .error e ∧ s.decode k m blocks = .error e := by
  by_cases h1 : s.max_k < k
  · have hc : s.decodeChecked k m blocks = .error .kExceedsMaxK := by
      simp [CauchySession.decodeChecked, h1]
    exact ⟨.kExceedsMaxK, Or.inl rfl, hc, decode_error_of_checked _ _ _ _ _ hc⟩
  · have h2 : blocks.length ≠ k := h.resolve_right h1
    have hc : s.decodeChecked k m blocks = .error .blockCountMismatch := by
      simp [CauchySession.decodeChecked, h1, h2]
    exact ⟨.blockCountMismatch, Or.inr rfl, hc, decode_error_of_checked _ _ _ _ _ hc⟩

/-- C5 witness: a concrete decode call supplying 0 blocks for k = 1 is rejected
with a block-count contract error. -/
theorem c5_decode_count_rejection_witness :
    (([] : List TBlock).length ≠ 1 ∨ (2 : ℕ) < 1) ∧
    ∃ e, (e = DecodeError.kExceedsMaxK ∨ e = DecodeError.blockCountMismatch) ∧
      CauchySession.decodeChecked ⟨2, [], [], []⟩ 1 1 [] = .error e ∧
      CauchySession.decode ⟨2, [], [], []⟩ 1 1 [] = .error e :=
  ⟨Or.inl (by decide),
   c5_decode_count_rejection ⟨2, [], [], []⟩ 1 1 [] (Or.inl (by decide))⟩

/-- C6: session construction rejects max_k above 256 with the corresponding
panic, and accepts any max_k at most 256, returning a session whose max_k
accessor yields the requested value. -/
theorem c6_new_max_k (p : ProcState) (max_k : ℕ) :
    (256 < max_k → CauchySession.new p max_k = .error .maxKTooLarge) ∧
    (max_k ≤ 256 → ∃ p2 s, CauchySession.new p max_k = .ok (p2, s) ∧ s.max_k = max_k) := by
  constructor
  · intro h
    simp [CauchySession.new, h]
  · intro h
    by_cases hp : p.tablesBuilt = true
    · exact ⟨p, ⟨max_k, [], [], []⟩, by simp [CauchySession.new, Nat.not_lt.mpr h, hp], rfl⟩
    · refine ⟨⟨true, p.initCalls + 1⟩, ⟨max_k, [], [], []⟩, ?_, rfl⟩
      simp [CauchySession.new, Nat.not_lt.mpr h, hp, cauchy_256_init, CAUCHY_256_VERSION]

/-- C6 witness: constructing with max_k = 257 panics, and constructing with
max_k = 256 from a fresh process succeeds with that bound recorded. -/
theorem c6_new_max_k_witness :
    CauchySession.new ProcState.fresh 257 = .error .maxKTooLarge ∧
    ∃ p2 s, CauchySession.new ProcState.fresh 256 = .ok (p2, s) ∧ s.max_k = 256 :=
  ⟨(c6_new_max_k ProcState.fresh 257).1 (by decide),
   (c6_new_max_k ProcState.fresh 256).2 (by decide)⟩

/-- Once the tables are built, later constructions leave the process state
untouched: the once guard skips the initialization closure. -/
theorem runNews_built (p : ProcState) (hp : p.tablesBuilt = true) (l : List ℕ) :
    runNews p l = p := by
  induction l with
  | nil => rfl
  | cons mk rest ih =>
    by_cases h : 256 < mk
    · simp [runNews, CauchySession.new, h, ih]
    · simp [runNews, CauchySession.new, Nat.not_lt.mpr (Nat.le_of_not_lt h), hp, ih]

/-- C8: from a fresh process, a sequence of session constructions runs the
native table initialization exactly once, at the first construction whose
max_k is accepted, and never again; until a construction is accepted the
tables stay unbuilt. -/
theorem c8_init_once (l : List ℕ) :
    (runNews ProcState.fresh l).initCalls = (if ∃ mk ∈ l, mk ≤ 256 then 1 else 0) ∧
    ((runNews ProcState.fresh l).tablesBuilt = true ↔ ∃ mk ∈ l, mk ≤ 256) := by
  induction l with
  | nil => simp [runNews, ProcState.fresh]
  | cons mk rest ih =>
    by_cases h : 256 < mk
    · have hstep : runNews ProcState.fresh (mk :: rest) = runNews ProcState.fresh rest := by
        simp [runNews, CauchySession.new, h]
      have hnot : ¬ mk ≤ 256 := Nat.not_le.mpr h
      rw [hstep]
      constructor
      · rw [ih.1]
        by_cases hr : ∃ x ∈ rest, x ≤ 256
        · simp [hr, hnot]
        · simp [hr, hnot]
      · rw [ih.2]
        simp [hnot]
    · have hle : mk ≤ 256 := Nat.le_of_not_lt h
      have hstep : runNews ProcState.fresh (mk :: rest) =
          runNews ⟨true, 1⟩ rest := by
        simp [runNews, CauchySession.new, Nat.not_lt.mpr hle, ProcState.fresh,
          cauchy_256_init, CAUCHY_256_VERSION]
      rw [hstep, runNews_built ⟨true, 1⟩ rfl rest]
      simp [hle]

/-- One step of the decode loop from the initial state: the head block records
its length (no size check yet) and passes the row-index check. -/
theorem decodeScan_none_step (k m : ℕ) (b : TBlock) (rest : List TBlock)
    (hb : b.index < k + m) :
    decodeScan k m none (b :: rest) =
      match decodeScan k m (some b.data.length) rest with
      | .error e => .error e
      | .ok (o, l) => .ok (o, (b.index % 256, b.data) :: l) := by
  simp [decodeScan, Nat.not_le.mpr hb]

/-- The decode loop from the initial state rejects an out-of-range tag with the
row-index panic when every block carries the head's length. -/
theorem decodeScan_none_row_err (k m : ℕ) (b : TBlock) (rest : List TBlock)
    (hL : ∀ x ∈ rest, x.data.length = b.data.length)
    (ht : ∃ x ∈ b :: rest, k + m ≤ x.index) :
    decodeScan k m none (b :: rest) = .error .invalidRowIndex := by
  by_cases hb : b.index < k + m
  · have ht2 : ∃ x ∈ rest, k + m ≤ x.index := by
      rcases ht with ⟨x, hx, hxi⟩
      rcases List.mem_cons.mp hx with h1 | h2
      · rw [h1] at hxi; exact absurd hxi (Nat.not_le.mpr hb)
      · exact ⟨x, h2, hxi⟩
    rw [decodeScan_none_step k m b rest hb,
      decodeScan_some_row_err k m b.data.length rest hL ht2]
  · simp [decodeScan, Nat.le_of_not_lt hb]

/-- C3: in a decode call that passes the count checks and whose blocks all share
one length, a tag of at least k+m makes the call fail with the row-index
contract error, in the validation stage, before the native decode transform is
invoked; and when every tag is below k+m the row-index check passes: the
validation stage never reports that error. -/
theorem c3_decode_row_index (s : CauchySession) (k m L : ℕ) (blocks : List TBlock)
    (hk : k ≤ s.max_k) (hcount : blocks.length = k)
    (hL : ∀ b ∈ blocks, b.data.length = L) :
    ((∃ b ∈ blocks, k + m ≤ b.index) →
       s.decodeChecked k m blocks = .error .invalidRowIndex ∧
       s.decode k m blocks = .error .invalidRowIndex) ∧
    ((∀ b ∈ blocks, b.index < k + m) →
       ∀ e, s.decodeChecked k m blocks = .error e → e ≠ .invalidRowIndex) := by
  constructor
  · intro ht
    match blocks, ht with
    | b :: rest, ht =>
      have hL2 : ∀ x ∈ rest, x.data.length = b.data.length := by
        intro x hx
        rw [hL x (List.mem_cons_of_mem b hx), hL b (List.mem_cons_self b rest)]
      have hscan := decodeScan_none_row_err k m b rest hL2 ht
      have hc := decodeChecked_scan_err s k m (b :: rest) hk hcount _ hscan
      exact ⟨hc, decode_error_of_checked _ _ _ _ _ hc⟩
  · intro ht e he hcontra
    subst hcontra
    have hno := decodeScan_no_row_err k m blocks ht none
    unfold CauchySession.decodeChecked at he
    by_cases h1 : s.max_k < k
    · simp [h1] at he
    · cases hscan : decodeScan k m none blocks with
      | error e2 =>
        simp [h1, hcount, hscan] at he
        rw [he] at hscan
        exact hno hscan
      | ok v =>
        obtain ⟨opt, natives⟩ := v
        cases opt with
        | none => simp [h1, hcount, hscan] at he
        | some bb =>
          by_cases h3 : bb = 0 ∨ bb % 8 ≠ 0
          · simp [h1, hcount, hscan, h3] at he
          · simp [h1, hcount, hscan, h3] at he

/-- C3 witness: a concrete decode call with k = 2, m = 1 and a block tagged 5
(at least k+m = 3) is rejected with the row-index error before the native
transform. -/
theorem c3_decode_row_index_witness :
    (∀ b ∈ [TBlock.mk 0 (List.replicate 8 0), TBlock.mk 5 (List.replicate 8 0)],
       b.data.length = 8) ∧
    CauchySession.decodeChecked ⟨2, [], [], []⟩ 2 1
      [⟨0, List.replicate 8 0⟩, ⟨5, List.replicate 8 0⟩] = .error .invalidRowIndex ∧
    CauchySession.decode ⟨2, [], [], []⟩ 2 1
      [⟨0, List.replicate 8 0⟩, ⟨5, List.replicate 8 0⟩] = .error .invalidRowIndex :=
  ⟨by decide,
   (c3_decode_row_index ⟨2, [], [], []⟩ 2 1 8
      [⟨0, List.replicate 8 0⟩, ⟨5, List.replicate 8 0⟩]
      (by decide) (by decide) (by decide)).1
     ⟨⟨5, List.replicate 8 0⟩, by decide, by decide⟩⟩

/-- C4: a length violation among the blocks participating in a call — a zero
length, a length that is not a multiple of 8, or a length differing from the
first observed block length — makes encode (first part) and decode (second
part) fail with the corresponding size contract error (the same-size panic or
the zero-or-unaligned panic), in the validation stage, before the native
transform is invoked.  The checks performed earlier in the source (the count
checks, and for decode the row-index bound) are assumed to pass. -/
theorem c4_block_size_rejection :
    (∀ (s : CauchySession) (b0 : List ℕ) (blocks recovery_blocks : List (List ℕ)),
       (b0 :: blocks).length ≤ s.max_k →
       (∃ l ∈ ((b0 :: blocks) ++ recovery_blocks).map List.length,
          l = 0 ∨ l % 8 ≠ 0 ∨ l ≠ b0.length) →
       ∃ e, (e = EncodeError.sizeMismatch ∨ e = EncodeError.badBlockSize) ∧
         s.encodeChecked (b0 :: blocks) recovery_blocks = .error e ∧
         s.encode (b0 :: blocks) recovery_blocks = .error e) ∧
    (∀ (s : CauchySession) (k m : ℕ) (b0 : TBlock) (blocks : List TBlock),
       k ≤ s.max_k → (b0 :: blocks).length = k →
       (∀ b ∈ b0 :: blocks, b.index < k + m) →
       (∃ l ∈ (b0 :: blocks).map (fun b => b.data.length),
          l = 0 ∨ l % 8 ≠ 0 ∨ l ≠ b0.data.length) →
       ∃ e, (e = DecodeError.sizeMismatch ∨ e = DecodeError.badBlockSize) ∧
         s.decodeChecked k m (b0 :: blocks) = .error e ∧
         s.decode k m (b0 :: blocks) = .error e) := by
  constructor
  · intro s b0 blocks recovery_blocks hcnt hv
    by_cases hall : ∀ x ∈ blocks, x.length = b0.length
    · have hscan := encodeScan_none_ok b0 blocks hall
      by_cases hbs : b0.length = 0 ∨ b0.length % 8 ≠ 0
      · have hc := encodeChecked_badsize s (b0 :: blocks) recovery_blocks
          b0.length (b0 :: blocks) hcnt hscan hbs
        exact ⟨.badBlockSize, Or.inr rfl, hc, encode_error_of_checked _ _ _ _ hc⟩
      · by_cases hrecov : ∀ r ∈ recovery_blocks, r.length = b0.length
        · exfalso
          obtain ⟨l, hl, hviol⟩ := hv
          obtain ⟨x, hx, hxl⟩ := List.mem_map.mp hl
          have hxlen : x.length = b0.length := by
            rcases List.mem_append.mp hx with h1 | h2
            · rcases List.mem_cons.mp h1 with h3 | h4
              · rw [h3]
              · exact hall x h4
            · exact hrecov x h2
          rw [← hxl, hxlen] at hviol
          push_neg at hbs
          rcases hviol with h | h | h
          · exact hbs.1 h
          · exact h hbs.2
          · exact h rfl
        · have hrec := recoveryScan_err b0.length recovery_blocks hrecov
          have hc := encodeChecked_recovery_err s (b0 :: blocks) recovery_blocks
            b0.length (b0 :: blocks) hcnt hscan hbs _ hrec
          exact ⟨.sizeMismatch, Or.inl rfl, hc, encode_error_of_checked _ _ _ _ hc⟩
    · have hscan := encodeScan_none_err b0 blocks hall
      have hc := encodeChecked_scan_err s (b0 :: blocks) recovery_blocks hcnt _ hscan
      exact ⟨.sizeMismatch, Or.inl rfl, hc, encode_error_of_checked _ _ _ _ hc⟩
  · intro s k m b0 blocks hk hcount ht hv
    have hb0 : b0.index < k + m := ht b0 (List.mem_cons_self b0 blocks)
    have ht2 : ∀ x ∈ blocks, x.index < k + m :=
      fun x hx => ht x (List.mem_cons_of_mem b0 hx)
    by_cases hall : ∀ x ∈ blocks, x.data.length = b0.data.length
    · have hscan : decodeScan k m none (b0 :: blocks) =
          .ok (some b0.data.length,
            (b0 :: blocks).map (fun b => (b.index % 256, b.data))) := by
        rw [decodeScan_none_step k m b0 blocks hb0,
          decodeScan_some_ok k m b0.data.length blocks hall ht2]
        rfl
      have hbs : b0.data.length = 0 ∨ b0.data.length % 8 ≠ 0 := by
        obtain ⟨l, hl, hviol⟩ := hv
        obtain ⟨x, hx, hxl⟩ := List.mem_map.mp hl
        have hxlen : x.data.length = b0.data.length := by
          rcases List.mem_cons.mp hx with h1 | h2
          · rw [h1]
          · exact hall x h2
        rw [← hxl, hxlen] at hviol
        rcases hviol with h | h | h
        · exact Or.inl h
        · exact Or.inr h
        · exact absurd rfl h
      have hc := decodeChecked_badsize s k m (b0 :: blocks) b0.data.length
        ((b0 :: blocks).map (fun b => (b.index % 256, b.data))) hk hcount hscan hbs
      exact ⟨.badBlockSize, Or.inr rfl, hc, decode_error_of_checked _ _ _ _ _ hc⟩
    · have hscan : decodeScan k m none (b0 :: blocks) = .error .sizeMismatch := by
        rw [decodeScan_none_step k m b0 blocks hb0,
          decodeScan_some_size_err k m b0.data.length blocks ht2 hall]
      have hc := decodeChecked_scan_err s k m (b0 :: blocks) hk hcount _ hscan
      exact ⟨.sizeMismatch, Or.inl rfl, hc, decode_error_of_checked _ _ _ _ _ hc⟩

/-- C4 witness: an encode call whose single data block has length 7 (not a
multiple of 8) is rejected with a size contract error, and a decode call whose
single block has length 0 likewise. -/
theorem c4_block_size_rejection_witness :
    (∃ e, (e = EncodeError.sizeMismatch ∨ e = EncodeError.badBlockSize) ∧
       CauchySession.encodeChecked ⟨2, [], [], []⟩ [List.replicate 7 1] [] = .error e ∧
       CauchySession.encode ⟨2, [], [], []⟩ [List.replicate 7 1] [] = .error e) ∧
    (∃ e, (e = DecodeError.sizeMismatch ∨ e = DecodeError.badBlockSize) ∧
       CauchySession.decodeChecked ⟨2, [], [], []⟩ 1 1 [⟨0, []⟩] = .error e ∧
       CauchySession.decode ⟨2, [], [], []⟩ 1 1 [⟨0, []⟩] = .error e) :=
  ⟨c4_block_size_rejection.1 ⟨2, [], [], []⟩ (List.replicate 7 1) [] []
     (by decide) ⟨7, by decide, by decide⟩,
   c4_block_size_rejection.2 ⟨2, [], [], []⟩ 1 1 ⟨0, []⟩ []
     (by decide) (by decide) (by decide) ⟨0, by decide, by decide⟩⟩

/-- C10: decode performs no duplicate detection on row indices: whenever the
count checks, the shared positive multiple-of-8 length and the row-index bound
hold, the validation stage succeeds and decode proceeds to invoke the native
decode transform on the collected rows — no hypothesis below requires the tags
to be distinct, and the witness supplies a duplicated tag. -/
theorem c10_decode_no_duplicate_check (s : CauchySession) (k m L : ℕ)
    (b0 : TBlock) (blocks : List TBlock)
    (hk : k ≤ s.max_k) (hcount : (b0 :: blocks).length = k)
    (hL : ∀ b ∈ b0 :: blocks, b.data.length = L) (hL0 : 0 < L) (hL8 : L % 8 = 0)
    (ht : ∀ b ∈ b0 :: blocks, b.index < k + m) :
    s.decodeChecked k m (b0 :: blocks) =
      .ok ({ s with native_block_ptrs :=
               (b0 :: blocks).map (fun b => (b.index % 256, b.data)) }, L) ∧
    s.decode k m (b0 :: blocks) =
      (let r := cauchy_256_decode k m
         ((b0 :: blocks).map (fun b => (b.index % 256, b.data))) L
       if r.1 ≠ 0 then .error .nativeDecodeFailure
       else .ok ({ s with native_block_ptrs :=
                     (b0 :: blocks).map (fun b => (b.index % 256, b.data)) },
                 r.2.map (fun nb => ⟨nb.1, nb.2⟩))) := by
  have hb0 : b0.index < k + m := ht b0 (List.mem_cons_self b0 blocks)
  have ht2 : ∀ x ∈ blocks, x.index < k + m :=
    fun x hx => ht x (List.mem_cons_of_mem b0 hx)
  have hb0L : b0.data.length = L := hL b0 (List.mem_cons_self b0 blocks)
  have hall : ∀ x ∈ blocks, x.data.length = b0.data.length := by
    intro x hx
    rw [hL x (List.mem_cons_of_mem b0 hx), hb0L]
  have hscan : decodeScan k m none (b0 :: blocks) =
      .ok (some L, (b0 :: blocks).map (fun b => (b.index % 256, b.data))) := by
    rw [decodeScan_none_step k m b0 blocks hb0,
      decodeScan_some_ok k m b0.data.length blocks hall ht2, hb0L]
    rfl
  have hbs : ¬ (L = 0 ∨ L % 8 ≠ 0) := by
    push_neg
    exact ⟨Nat.pos_iff_ne_zero.mp hL0, hL8⟩
  have hc := decodeChecked_ok s k m (b0 :: blocks) L
    ((b0 :: blocks).map (fun b => (b.index % 256, b.data))) hk hcount hscan hbs
  refine ⟨hc, ?_⟩
  unfold CauchySession.decode
  rw [hc]

/-- C10 witness: a decode call supplying the same tag twice (both blocks tagged
1, k = 2, m = 2) passes the wrapper's validation; the native decode transform is
then invoked (and, in the model, reports a singular system). -/
theorem c10_decode_no_duplicate_check_witness :
    (∀ b ∈ [TBlock.mk 1 (List.replicate 8 1), TBlock.mk 1 (List.replicate 8 1)],
       b.index < 2 + 2) ∧
    CauchySession.decodeChecked ⟨2, [], [], []⟩ 2 2
      [⟨1, List.replicate 8 1⟩, ⟨1, List.replicate 8 1⟩] =
      .ok (⟨2, [], [], [(1, List.replicate 8 1), (1, List.replicate 8 1)]⟩, 8) :=
  ⟨by decide,
   (c10_decode_no_duplicate_check ⟨2, [], [], []⟩ 2 2 8
      ⟨1, List.replicate 8 1⟩ [⟨1, List.replicate 8 1⟩]
      (by decide) (by decide) (by decide) (by decide) (by decide) (by decide)).1⟩

/-- The modelled native encode transform always reports success. -/
theorem encode_status_zero (k m : ℕ) (data : List (List ℕ)) (bb : ℕ) :
    (cauchy_256_encode k m data bb).1 = 0 := rfl

/-- Inversion of encode's successful validation stage: every check passed, the
common length is the first block's, and the scratch was refilled with exactly
the supplied blocks and buffers. -/
theorem encodeChecked_ok_inv (s : CauchySession) (blocks recovery_blocks : List (List ℕ))
    (t : CauchySession) (bb : ℕ)
    (h : s.encodeChecked blocks recovery_blocks = .ok (t, bb)) :
    blocks.length ≤ s.max_k ∧ blocks ≠ [] ∧
    (∀ x ∈ blocks, x.length = bb) ∧
    ¬ (bb = 0 ∨ bb % 8 ≠ 0) ∧ (∀ r ∈ recovery_blocks, r.length = bb) ∧
    t = { s with block_ptrs := blocks, recovery_block_ptrs := recovery_blocks } := by
  by_cases h1 : s.max_k < blocks.length
  · exfalso
    unfold CauchySession.encodeChecked at h
    simp [h1] at h
  · have hcnt : blocks.length ≤ s.max_k := Nat.le_of_not_lt h1
    match blocks with
    | [] =>
      exfalso
      unfold CauchySession.encodeChecked at h
      simp [encodeScan, h1] at h
    | b0 :: rest =>
      by_cases hall : ∀ x ∈ rest, x.length = b0.length
      · unfold CauchySession.encodeChecked at h
        rw [if_neg h1, encodeScan_none_ok b0 rest hall] at h
        dsimp only at h
        by_cases h3 : b0.length = 0 ∨ b0.length % 8 ≠ 0
        · exfalso
          rw [if_pos h3] at h
          exact absurd h (by simp)
        · rw [if_neg h3] at h
          by_cases hrec : ∀ r ∈ recovery_blocks, r.length = b0.length
          · rw [recoveryScan_ok b0.length recovery_blocks hrec] at h
            simp only [Except.ok.injEq, Prod.mk.injEq] at h
            obtain ⟨ht, hbb⟩ := h
            subst hbb
            refine ⟨hcnt, by simp, ?_, h3, hrec, ht.symm⟩
            intro x hx
            rcases List.mem_cons.mp hx with h4 | h5
            · rw [h4]
            · exact hall x h5
          · exfalso
            rw [recoveryScan_err b0.length recovery_blocks hrec] at h
            simp at h
      · exfalso
        unfold CauchySession.encodeChecked at h
        rw [if_neg h1, encodeScan_none_err b0 rest hall] at h
        simp at h

/-- C9: encoding is deterministic and independent of everything but the data:
two encode calls on the same data blocks, in sessions with the same bound and
arbitrary scratch, with recovery buffers of the same length profile but
arbitrary prior contents, produce identical outcomes, and in particular
byte-identical recovery blocks. -/
theorem c9_encode_deterministic (s1 s2 : CauchySession)
    (blocks r1 r2 : List (List ℕ))
    (hmk : s1.max_k = s2.max_k) (hprof : r1.map List.length = r2.map List.length) :
    Except.map (fun v => v.2.2) (s1.encode blocks r1) =
      Except.map (fun v => v.2.2) (s2.encode blocks r2) := by
  have hlen : r1.length = r2.length := by
    have h := congrArg List.length hprof
    simpa using h
  unfold CauchySession.encode CauchySession.encodeChecked
  rw [hmk, hlen]
  by_cases h1 : s2.max_k < blocks.length
  · simp [h1]
  · rw [if_neg h1, if_neg h1]
    cases hscan : encodeScan none blocks with
    | error e => simp
    | ok v =>
      obtain ⟨opt, ptrs⟩ := v
      cases opt with
      | none => simp
      | some bb =>
        dsimp only
        by_cases h3 : bb = 0 ∨ bb % 8 ≠ 0
        · rw [if_pos h3, if_pos h3]
        · rw [if_neg h3, if_neg h3]
          have hiff : (∀ x ∈ r1, x.length = bb) ↔ (∀ x ∈ r2, x.length = bb) := by
            have hgen : ∀ (r : List (List ℕ)),
                (∀ x ∈ r, x.length = bb) ↔ (∀ l ∈ r.map List.length, l = bb) := by
              intro r
              simp
            rw [hgen r1, hgen r2, hprof]
          by_cases hr : ∀ x ∈ r1, x.length = bb
          · rw [recoveryScan_ok bb r1 hr, recoveryScan_ok bb r2 (hiff.mp hr)]
            simp only [encode_status_zero, if_true, reduceIte]
            rfl
          · rw [recoveryScan_err bb r1 hr, recoveryScan_err bb r2 (fun hc => hr (hiff.mpr hc))]

/-- C9 witness: encoding one data block of ones twice, with different session
scratch and different prior recovery contents (zeros against sevens), yields the
same outcome and recovery bytes. -/
theorem c9_encode_deterministic_witness :
    (⟨1, [], [], []⟩ : CauchySession).max_k = (⟨1, [[2]], [[3]], []⟩ : CauchySession).max_k ∧
    [List.replicate 8 0].map List.length = [List.replicate 8 7].map List.length ∧
    Except.map (fun v => v.2.2)
        (CauchySession.encode ⟨1, [], [], []⟩ [List.replicate 8 1] [List.replicate 8 0]) =
      Except.map (fun v => v.2.2)
        (CauchySession.encode ⟨1, [[2]], [[3]], []⟩ [List.replicate 8 1] [List.replicate 8 7]) :=
  ⟨rfl, by decide,
   c9_encode_deterministic ⟨1, [], [], []⟩ ⟨1, [[2]], [[3]], []⟩
     [List.replicate 8 1] [List.replicate 8 0] [List.replicate 8 7] rfl (by decide)⟩

/-- C7: on a successful encode the data blocks come back unchanged; the session
is mutated only in its scratch vectors, which hold exactly the supplied blocks
and buffers; the recovery output is the native transform of the data alone,
with every output buffer fully formed at the common length; and the same output
arises from any prior recovery contents of the same length profile. -/
theorem c7_encode_frame (s : CauchySession) (blocks recovery_blocks : List (List ℕ))
    (s2 : CauchySession) (data_after rout : List (List ℕ))
    (h : s.encode blocks recovery_blocks = .ok (s2, data_after, rout)) :
    data_after = blocks ∧
    s2 = { s with block_ptrs := blocks, recovery_block_ptrs := recovery_blocks } ∧
    (∃ bb, s.encodeChecked blocks recovery_blocks = .ok (s2, bb) ∧
       rout = (cauchy_256_encode blocks.length recovery_blocks.length blocks bb).2 ∧
       rout.length = recovery_blocks.length ∧ ∀ r ∈ rout, r.length = bb) ∧
    (∀ recovery2 : List (List ℕ),
       recovery2.map List.length = recovery_blocks.map List.length →
       s.encode blocks recovery2 =
         .ok ({ s with block_ptrs := blocks, recovery_block_ptrs := recovery2 },
              blocks, rout)) := by
  unfold CauchySession.encode at h
  cases hchk : s.encodeChecked blocks recovery_blocks with
  | error e =>
    rw [hchk] at h
    exact absurd h (by simp)
  | ok v =>
    obtain ⟨t, bb⟩ := v
    rw [hchk] at h
    dsimp only at h
    rw [if_neg (not_not_intro (encode_status_zero blocks.length recovery_blocks.length blocks bb))] at h
    simp only [Except.ok.injEq, Prod.mk.injEq] at h
    obtain ⟨hts, hdata, hrout⟩ := h
    obtain ⟨hcnt, hne, hblen, hbs, hrlen, htshape⟩ :=
      encodeChecked_ok_inv s blocks recovery_blocks t bb hchk
    subst hts
    refine ⟨hdata.symm, htshape, ⟨bb, rfl, ?_, ?_, ?_⟩, ?_⟩
    · rw [← hrout]
    · rw [← hrout]
      simp [cauchy_256_encode]
    · intro r hr
      rw [← hrout] at hr
      simp only [cauchy_256_encode] at hr
      obtain ⟨i, hi, hri⟩ := List.mem_map.mp hr
      rw [← hri]
      simp
    · intro recovery2 hprof
      have hr2 : ∀ x ∈ recovery2, x.length = bb := by
        intro x hx
        have hx2 : x.length ∈ recovery2.map List.length := List.mem_map_of_mem List.length hx
        rw [hprof] at hx2
        obtain ⟨y, hy, hyl⟩ := List.mem_map.mp hx2
        rw [← hyl]
        exact hrlen y hy
      have hlen2 : recovery2.length = recovery_blocks.length := by
        have hc := congrArg List.length hprof
        simpa using hc
      match blocks, hne with
      | b0 :: rest, _ =>
        have hall : ∀ x ∈ rest, x.length = b0.length := by
          intro x hx
          rw [hblen x (List.mem_cons_of_mem b0 hx),
            hblen b0 (List.mem_cons_self b0 rest)]
        have hb0 : b0.length = bb := hblen b0 (List.mem_cons_self b0 rest)
        have hscan : encodeScan none (b0 :: rest) = .ok (some bb, b0 :: rest) := by
          rw [encodeScan_none_ok b0 rest hall, hb0]
        have hchk2 := encodeChecked_ok s (b0 :: rest) recovery2 bb (b0 :: rest)
          hcnt hscan hbs recovery2 (recoveryScan_ok bb recovery2 hr2)
        unfold CauchySession.encode
        rw [hchk2]
        dsimp only
        rw [if_neg (by simp [encode_status_zero])]
        rw [hlen2, hrout]

/-- C7 witness: a concrete successful encode leaves the data unchanged, refills
only the scratch, and the same recovery bytes arise when the prior contents of
the output buffer are sevens instead of zeros. -/
theorem c7_encode_frame_witness :
    CauchySession.encode ⟨1, [], [], []⟩ [List.replicate 8 1] [List.replicate 8 0] =
      .ok (⟨1, [List.replicate 8 1], [List.replicate 8 0], []⟩,
           [List.replicate 8 1], [List.replicate 8 1]) ∧
    CauchySession.encode ⟨1, [], [], []⟩ [List.replicate 8 1] [List.replicate 8 7] =
      .ok (⟨1, [List.replicate 8 1], [List.replicate 8 7], []⟩,
           [List.replicate 8 1], [List.replicate 8 1]) :=
  ⟨rfl,
   (c7_encode_frame ⟨1, [], [], []⟩ [List.replicate 8 1] [List.replicate 8 0]
       ⟨1, [List.replicate 8 1], [List.replicate 8 0], []⟩
       [List.replicate 8 1] [List.replicate 8 1] rfl).2.2.2
     [List.replicate 8 7] (by decide)⟩

/- Field-level model of the native transforms for the round-trip claim.  The
native encoder/decoder (not under src/) work over GF(256); the spec describes
them through the Cauchy matrix C[i][j] = 1/(x_i xor y_j) over disjoint index
sets and a linear-system decode.  The model below is stated over an arbitrary
field (xor is addition in GF(256), a field of characteristic 2), with the
parameter families x, y and their disjointness as explicit arguments, exactly
the data the spec's construction rule provides. -/

section SpecModel

variable {F : Type} [Field F] [DecidableEq F]

/-- Modelled from the spec: the Cauchy coding matrix, entry (i, j) the field
inverse of x_i + y_j, for the recovery-row parameters x and data-column
parameters y. -/
def cauchyM (k m : ℕ) (x : Fin m → F) (y : Fin k → F) : Matrix (Fin m) (Fin k) F :=
  Matrix.of fun i j => (x i + y j)⁻¹

/-- Modelled from the spec: the encoder; recovery row i at symbol position p is
the linear combination of the data rows' symbols at p with the Cauchy
coefficients. -/
def specEncode (k m L : ℕ) (x : Fin m → F) (y : Fin k → F)
    (data : Fin k → Fin L → F) : Fin m → Fin L → F :=
  fun i p => ∑ j, cauchyM k m x y i j * data j p

/-- Row r of the extended (k+m)-row matrix: an identity row for a data row
(r < k), the Cauchy row r - k for a recovery row. -/
def extRow (k m : ℕ) (x : Fin m → F) (y : Fin k → F) (r : Fin (k + m)) : Fin k → F :=
  if h : (r : ℕ) < k then Pi.single (⟨(r : ℕ), h⟩ : Fin k) 1
  else fun j => cauchyM k m x y ⟨(r : ℕ) - k, by have h2 := r.isLt; omega⟩ j

/-- The symbol content carried by extended row r: the data row itself, or the
encoded recovery row. -/
def extVal (k m L : ℕ) (x : Fin m → F) (y : Fin k → F)
    (data : Fin k → Fin L → F) (r : Fin (k + m)) : Fin L → F :=
  if h : (r : ℕ) < k then data ⟨(r : ℕ), h⟩
  else specEncode k m L x y data ⟨(r : ℕ) - k, by have h2 := r.isLt; omega⟩

/-- The k x k coefficient matrix decode assembles from the supplied tags. -/
def decodeM (k m : ℕ) (x : Fin m → F) (y : Fin k → F)
    (t : Fin k → Fin (k + m)) : Matrix (Fin k) (Fin k) F :=
  Matrix.of fun i j => extRow k m x y (t i) j

/-- Modelled from the spec: the decoder solves the assembled linear system (the
native code by Gaussian elimination with partial pivoting, which succeeds
exactly when the system is nonsingular; the model applies the adjugate-based
inverse in that case and fails otherwise), returning each logical data row's
index in 0..k together with its reconstructed content. -/
def specDecode (k m L : ℕ) (x : Fin m → F) (y : Fin k → F)
    (t : Fin k → Fin (k + m)) (c : Fin k → Fin L → F) :
    Option (Fin k → ℕ × (Fin L → F)) :=
  let M := decodeM k m x y t
  if M.det ≠ 0 then
    some (fun j => (Fin.val j,
      fun p => (M.det⁻¹ • (M.adjugate.mulVec (fun i => c i p))) j))
  else none

/-- Dot product of an identity row with a vector picks the indexed entry. -/
theorem single_dot (k : ℕ) (jj : Fin k) (v : Fin k → F) :
    ∑ j, (Pi.single jj (1 : F) : Fin k → F) j * v j = v jj := by
  rw [Finset.sum_eq_single jj]
  · simp
  · intro b hb hne
    simp [Pi.single_apply, hne]
  · simp

/-- A data-tagged row of the decode system reads off one unknown. -/
theorem decodeM_mulVec_data (k m : ℕ) (x : Fin m → F) (y : Fin k → F)
    (t : Fin k → Fin (k + m)) (v : Fin k → F) (i : Fin k) (hi : ((t i : ℕ)) < k) :
    (decodeM k m x y t).mulVec v i = v ⟨(t i : ℕ), hi⟩ := by
  simp only [decodeM, Matrix.mulVec, Matrix.dotProduct, Matrix.of_apply, extRow, hi,
    dite_true]
  exact single_dot k ⟨(t i : ℕ), hi⟩ v

/-- A recovery-tagged row of the decode system is a Cauchy equation. -/
theorem decodeM_mulVec_rec (k m : ℕ) (x : Fin m → F) (y : Fin k → F)
    (t : Fin k → Fin (k + m)) (v : Fin k → F) (i : Fin k) (hi : k ≤ ((t i : ℕ))) :
    (decodeM k m x y t).mulVec v i =
      ∑ j, (x ⟨(t i : ℕ) - k, by have h2 := (t i).isLt; omega⟩ + y j)⁻¹ * v j := by
  have hlt : ¬ ((t i : ℕ)) < k := Nat.not_lt.mpr hi
  simp only [decodeM, Matrix.mulVec, Matrix.dotProduct, Matrix.of_apply, extRow, hlt,
    dite_false, cauchyM]

end SpecModel

/-- Nonsingularity core: a square Cauchy system has a trivial kernel.  If w
satisfies the n equations sum_j (a_i + b_j)⁻¹ * w_j = 0 with the a's distinct,
the b's distinct and every a_i + b_j nonzero, then w = 0.  Proof: the
polynomial P(z) = sum_j w_j * prod_{l ≠ j} (z + b_l) has degree at most n-1 and
vanishes at the n distinct points a_i, hence is zero; evaluating it at -b_j
isolates w_j. -/
theorem cauchy_kernel {F : Type} [Field F] (n : ℕ) (a b w : Fin n → F)
    (ha : Function.Injective a) (hb : Function.Injective b)
    (hab : ∀ i j, a i + b j ≠ 0)
    (hw : ∀ i, ∑ j, (a i + b j)⁻¹ * w j = 0) : w = 0 := by
  rcases Nat.eq_zero_or_pos n with hn | hn
  · subst hn
    funext j
    exact j.elim0
  classical
  set P : Polynomial F :=
    ∑ j, Polynomial.C (w j) * ∏ l ∈ Finset.univ.erase j, (Polynomial.X + Polynomial.C (b l))
    with hP
  have heval : ∀ z : F, P.eval z = ∑ j, w j * ∏ l ∈ Finset.univ.erase j, (z + b l) := by
    intro z
    rw [hP]
    simp [Polynomial.eval_finset_sum, Polynomial.eval_prod]
  have hroot : ∀ i, P.eval (a i) = 0 := by
    intro i
    rw [heval (a i)]
    have hterm : ∀ j : Fin n,
        w j * ∏ l ∈ Finset.univ.erase j, (a i + b l) =
          ((a i + b j)⁻¹ * w j) * ∏ l, (a i + b l) := by
      intro j
      have hprod := Finset.mul_prod_erase Finset.univ (fun l => a i + b l) (Finset.mem_univ j)
      calc w j * ∏ l ∈ Finset.univ.erase j, (a i + b l)
          = ((a i + b j)⁻¹ * (a i + b j)) *
              (w j * ∏ l ∈ Finset.univ.erase j, (a i + b l)) := by
            rw [inv_mul_cancel₀ (hab i j), one_mul]
        _ = ((a i + b j)⁻¹ * w j) *
              ((a i + b j) * ∏ l ∈ Finset.univ.erase j, (a i + b l)) := by ring
        _ = ((a i + b j)⁻¹ * w j) * ∏ l, (a i + b l) := by rw [hprod]
    calc ∑ j, w j * ∏ l ∈ Finset.univ.erase j, (a i + b l)
        = ∑ j, ((a i + b j)⁻¹ * w j) * ∏ l, (a i + b l) :=
          Finset.sum_congr rfl (fun j _ => hterm j)
      _ = (∑ j, (a i + b j)⁻¹ * w j) * ∏ l, (a i + b l) := by rw [Finset.sum_mul]
      _ = 0 := by rw [hw i, zero_mul]
  have hdeg : P.natDegree ≤ n - 1 := by
    rw [hP]
    apply Polynomial.natDegree_sum_le_of_forall_le
    intro j _
    refine le_trans Polynomial.natDegree_mul_le ?_
    rw [Polynomial.natDegree_C, zero_add]
    refine le_trans (Polynomial.natDegree_prod_le _ _) ?_
    have hone : ∀ l ∈ Finset.univ.erase j, (Polynomial.X + Polynomial.C (b l)).natDegree = 1 :=
      fun l _ => Polynomial.natDegree_X_add_C (b l)
    rw [Finset.sum_congr rfl hone]
    simp [Finset.card_erase_of_mem]
  have hPzero : P = 0 := by
    apply Polynomial.eq_zero_of_natDegree_lt_card_of_eval_eq_zero P ha hroot
    refine lt_of_le_of_lt hdeg ?_
    simp only [Fintype.card_fin]
    omega
  funext j
  have hz : P.eval (-(b j)) = 0 := by rw [hPzero]; simp
  rw [heval (-(b j))] at hz
  have hsum : ∑ j2, w j2 * ∏ l ∈ Finset.univ.erase j2, (-(b j) + b l) =
      w j * ∏ l ∈ Finset.univ.erase j, (-(b j) + b l) := by
    apply Finset.sum_eq_single j
    · intro l hl hlj
      apply mul_eq_zero_of_right
      apply Finset.prod_eq_zero (Finset.mem_erase.mpr ⟨Ne.symm hlj, Finset.mem_univ j⟩)
      ring
    · intro hj
      exact absurd (Finset.mem_univ j) hj
  rw [hsum] at hz
  have hprodne : ∏ l ∈ Finset.univ.erase j, (-(b j) + b l) ≠ 0 := by
    rw [Finset.prod_ne_zero_iff]
    intro l hl hc
    have hlj : l ≠ j := (Finset.mem_erase.mp hl).1
    have hc2 : b l = b j := by linear_combination hc
    exact hlj (hb hc2)
  rcases mul_eq_zero.mp hz with h | h
  · exact h
  · exact absurd h hprodne

/-- Rows of the decode system whose tag names a data row. -/
def dataRows (k m : ℕ) (t : Fin k → Fin (k + m)) : Finset (Fin k) :=
  Finset.univ.filter (fun i => ((t i : ℕ) < k))

/-- Rows of the decode system whose tag names a recovery row. -/
def recRows (k m : ℕ) (t : Fin k → Fin (k + m)) : Finset (Fin k) :=
  Finset.univ.filter (fun i => (k ≤ (t i : ℕ)))

/-- Data columns pinned by a data-tagged row. -/
def coveredCols (k m : ℕ) (t : Fin k → Fin (k + m)) : Finset (Fin k) :=
  (dataRows k m t).attach.image
    (fun i => (⟨((t i.1 : ℕ)), by
      have h := i.2
      simp only [dataRows, Finset.mem_filter] at h
      exact h.2⟩ : Fin k))

/-- Data columns not pinned by any data-tagged row. -/
def freeCols (k m : ℕ) (t : Fin k → Fin (k + m)) : Finset (Fin k) :=
  Finset.univ.filter (fun j => j ∉ coveredCols k m t)

/-- With distinct tags, the pinned columns are in bijection with the
data-tagged rows. -/
theorem card_coveredCols (k m : ℕ) (t : Fin k → Fin (k + m))
    (ht : Function.Injective t) :
    (coveredCols k m t).card = (dataRows k m t).card := by
  rw [coveredCols, Finset.card_image_of_injOn, Finset.card_attach]
  intro i1 h1 i2 h2 he
  simp only [Fin.mk.injEq] at he
  exact Subtype.ext (ht (Fin.val_injective he))

/-- With distinct tags there are as many free columns as recovery-tagged rows. -/
theorem card_freeCols (k m : ℕ) (t : Fin k → Fin (k + m))
    (ht : Function.Injective t) :
    (freeCols k m t).card = (recRows k m t).card := by
  have h0 : (Finset.univ.filter (fun j : Fin k => j ∈ coveredCols k m t)).card +
      (Finset.univ.filter (fun j : Fin k => ¬ j ∈ coveredCols k m t)).card =
      (Finset.univ : Finset (Fin k)).card :=
    Finset.filter_card_add_filter_neg_card_eq_card _
  have h1 : (Finset.univ.filter (fun j : Fin k => j ∈ coveredCols k m t)) =
      coveredCols k m t := by
    ext j
    simp
  have h2 : (Finset.univ.filter (fun i : Fin k => ((t i : ℕ) < k))).card +
      (Finset.univ.filter (fun i : Fin k => ¬ ((t i : ℕ) < k))).card =
      (Finset.univ : Finset (Fin k)).card :=
    Finset.filter_card_add_filter_neg_card_eq_card _
  have h3 : (Finset.univ.filter (fun i : Fin k => ¬ ((t i : ℕ) < k))) = recRows k m t := by
    ext i
    simp [recRows, Nat.not_lt]
  have h4 := card_coveredCols k m t ht
  rw [h1] at h0
  rw [h3] at h2
  have h5 : (freeCols k m t).card =
      (Finset.univ.filter (fun j : Fin k => ¬ j ∈ coveredCols k m t)).card := rfl
  have h6 : (dataRows k m t).card =
      (Finset.univ.filter (fun i : Fin k => ((t i : ℕ) < k))).card := rfl
  omega

/-- Kernel triviality of the decode system: with distinct tags and a valid
Cauchy parameter choice, the assembled k x k matrix annihilates only the zero
vector.  Data-tagged rows pin their columns to zero; the recovery-tagged rows
then restrict to a square Cauchy system on the free columns, which cauchy_kernel
kills. -/
theorem decodeM_kernel {F : Type} [Field F] [DecidableEq F] (k m : ℕ)
    (x : Fin m → F) (y : Fin k → F)
    (hx : Function.Injective x) (hy : Function.Injective y)
    (hxy : ∀ i j, x i + y j ≠ 0) (t : Fin k → Fin (k + m)) (ht : Function.Injective t)
    (v : Fin k → F) (hv : (decodeM k m x y t).mulVec v = 0) : v = 0 := by
  classical
  have hvcov : ∀ j ∈ coveredCols k m t, v j = 0 := by
    intro j hj
    obtain ⟨i, hi, hij⟩ := Finset.mem_image.mp hj
    have hmem := i.2
    simp only [dataRows, Finset.mem_filter] at hmem
    have hlt : ((t i.1 : ℕ)) < k := hmem.2
    have h0 : (decodeM k m x y t).mulVec v i.1 = 0 := congrFun hv i.1
    rw [decodeM_mulVec_data k m x y t v i.1 hlt] at h0
    rw [← hij]
    exact h0
  have hcard := card_freeCols k m t ht
  let n := (recRows k m t).card
  let e1 : Fin n ≃ {i // i ∈ recRows k m t} := (recRows k m t).equivFin.symm
  let e2 : Fin n ≃ {j // j ∈ freeCols k m t} :=
    (finCongr hcard.symm).trans (freeCols k m t).equivFin.symm
  have hrecmem : ∀ i : {i // i ∈ recRows k m t}, k ≤ ((t i.1 : ℕ)) := by
    intro i
    have h := i.2
    simp only [recRows, Finset.mem_filter] at h
    exact h.2
  let a : Fin n → F := fun i' => x ⟨((t (e1 i').1 : ℕ)) - k, by
    have h1 := hrecmem (e1 i')
    have h2 := (t (e1 i').1).isLt
    omega⟩
  let b : Fin n → F := fun j' => y (e2 j').1
  let w : Fin n → F := fun j' => v (e2 j').1
  have hainj : Function.Injective a := by
    intro i1 i2 he
    have h2 : ((t (e1 i1).1 : ℕ)) - k = ((t (e1 i2).1 : ℕ)) - k :=
      congrArg Fin.val (hx he)
    have ha1 := hrecmem (e1 i1)
    have ha2 := hrecmem (e1 i2)
    have h3 : ((t (e1 i1).1 : ℕ)) = ((t (e1 i2).1 : ℕ)) := by omega
    exact e1.injective (Subtype.ext (ht (Fin.val_injective h3)))
  have hbinj : Function.Injective b := by
    intro j1 j2 he
    exact e2.injective (Subtype.ext (hy he))
  have habne : ∀ i' j', a i' + b j' ≠ 0 := fun i' j' => hxy _ _
  have hweq : ∀ i', ∑ j', (a i' + b j')⁻¹ * w j' = 0 := by
    intro i'
    have hge : k ≤ ((t (e1 i').1 : ℕ)) := hrecmem (e1 i')
    have h0 : (decodeM k m x y t).mulVec v (e1 i').1 = 0 := congrFun hv (e1 i').1
    rw [decodeM_mulVec_rec k m x y t v (e1 i').1 hge] at h0
    have hfilter : Finset.univ.filter (fun j2 : Fin k => j2 ∈ coveredCols k m t)
        = coveredCols k m t := by
      ext j2
      simp
    have hzero : ∑ j2 ∈ coveredCols k m t, (a i' + y j2)⁻¹ * v j2 = 0 :=
      Finset.sum_eq_zero (fun j2 hj2 => by rw [hvcov j2 hj2, mul_zero])
    have hsplit := Finset.sum_filter_add_sum_filter_not Finset.univ
      (fun j2 : Fin k => j2 ∈ coveredCols k m t)
      (fun j2 => (a i' + y j2)⁻¹ * v j2)
    rw [hfilter, hzero, zero_add] at hsplit
    have hfree : ∑ j2 ∈ freeCols k m t, (a i' + y j2)⁻¹ * v j2 = 0 := by
      rw [freeCols]
      rw [hsplit]
      exact h0
    calc ∑ j', (a i' + b j')⁻¹ * w j'
        = ∑ jj : {j // j ∈ freeCols k m t}, (a i' + y jj.1)⁻¹ * v jj.1 :=
          Equiv.sum_comp e2 (fun jj => (a i' + y jj.1)⁻¹ * v jj.1)
      _ = ∑ j2 ∈ freeCols k m t, (a i' + y j2)⁻¹ * v j2 :=
          Finset.sum_coe_sort (freeCols k m t) (fun j2 => (a i' + y j2)⁻¹ * v j2)
      _ = 0 := hfree
  have hw0 := cauchy_kernel n a b w hainj hbinj habne hweq
  have hvfree : ∀ j ∈ freeCols k m t, v j = 0 := by
    intro j hj
    have h1 : (e2 (e2.symm ⟨j, hj⟩)).1 = j := by rw [Equiv.apply_symm_apply]
    have h2 : w (e2.symm ⟨j, hj⟩) = 0 := congrFun hw0 _
    rw [← h1]
    exact h2
  funext j
  by_cases hj : j ∈ coveredCols k m t
  · exact hvcov j hj
  · exact hvfree j (Finset.mem_filter.mpr ⟨Finset.mem_univ j, hj⟩)

/-- The decode system of any set of distinctly tagged rows is nonsingular: the
invertibility guarantee of the Cauchy construction. -/
theorem decodeM_det_ne_zero {F : Type} [Field F] [DecidableEq F] (k m : ℕ)
    (x : Fin m → F) (y : Fin k → F)
    (hx : Function.Injective x) (hy : Function.Injective y)
    (hxy : ∀ i j, x i + y j ≠ 0) (t : Fin k → Fin (k + m)) (ht : Function.Injective t) :
    (decodeM k m x y t).det ≠ 0 := by
  intro hdet
  obtain ⟨v, hvne, hv⟩ := Matrix.exists_mulVec_eq_zero_iff_aux.mpr hdet
  exact hvne (decodeM_kernel k m x y hx hy hxy t ht v hv)

/-- The received contents of the tagged rows are exactly the decode matrix
applied to the original data, symbol position by symbol position. -/
theorem extVal_eq_mulVec {F : Type} [Field F] [DecidableEq F] (k m L : ℕ)
    (x : Fin m → F) (y : Fin k → F) (data : Fin k → Fin L → F)
    (t : Fin k → Fin (k + m)) (p : Fin L) :
    (fun i => extVal k m L x y data (t i) p) =
      (decodeM k m x y t).mulVec (fun j => data j p) := by
  funext i
  by_cases hi : ((t i : ℕ)) < k
  · rw [decodeM_mulVec_data k m x y t _ i hi]
    simp only [extVal, hi, dite_true]
  · have hge : k ≤ ((t i : ℕ)) := Nat.le_of_not_lt hi
    rw [decodeM_mulVec_rec k m x y t _ i hge]
    simp only [extVal, hi, dite_false, specEncode, cauchyM, Matrix.of_apply]

/-- C1: round-trip.  For k in [1,32], m in [2,32], k+m at most 255, block
length L a positive multiple of 8, and a valid Cauchy parameter choice
(distinct x's, distinct y's, disjoint so that every x_i + y_j is nonzero, as
the spec's construction rule guarantees): encoding the k data blocks, then
selecting any k of the k+m tagged rows, in any order (an arbitrary injection t
from positions to rows), and decoding, reproduces the k original data blocks
exactly and tags each with its logical data-row index in 0..k. -/
theorem c1_encode_decode_roundtrip {F : Type} [Field F] [DecidableEq F] (k m L : ℕ)
    (x : Fin m → F) (y : Fin k → F)
    (hk1 : 1 ≤ k) (hk32 : k ≤ 32) (hm2 : 2 ≤ m) (hm32 : m ≤ 32) (hkm : k + m ≤ 255)
    (hL0 : 0 < L) (hL8 : L % 8 = 0)
    (hx : Function.Injective x) (hy : Function.Injective y)
    (hxy : ∀ i j, x i + y j ≠ 0)
    (t : Fin k → Fin (k + m)) (ht : Function.Injective t)
    (data : Fin k → Fin L → F) :
    specDecode k m L x y t (fun i => extVal k m L x y data (t i)) =
      some (fun j => (Fin.val j, data j)) := by
  have hdet := decodeM_det_ne_zero k m x y hx hy hxy t ht
  unfold specDecode
  rw [if_pos hdet]
  congr 1
  funext j
  have hsnd : (fun p => ((decodeM k m x y t).det⁻¹ •
      ((decodeM k m x y t).adjugate.mulVec
        (fun i => extVal k m L x y data (t i) p))) j) = data j := by
    funext p
    rw [extVal_eq_mulVec k m L x y data t p]
    rw [Matrix.mulVec_mulVec]
    rw [Matrix.adjugate_mul]
    rw [Matrix.smul_mulVec_assoc]
    rw [Matrix.one_mulVec]
    rw [smul_smul, inv_mul_cancel₀ hdet, one_smul]
  exact congrArg (Prod.mk (Fin.val j)) hsnd

instance : Fact (Nat.Prime 5) := ⟨by norm_num⟩

/-- C1 witness: a concrete instance over the field with five elements, k = 1,
m = 2, L = 8, data row the constant 3, decoding from the second recovery row
(tag 2) alone reproduces the data row with tag 0. -/
theorem c1_encode_decode_roundtrip_witness :
    Function.Injective (![1, 2] : Fin 2 → ZMod 5) ∧
    (∀ i j, (![1, 2] : Fin 2 → ZMod 5) i + (![0] : Fin 1 → ZMod 5) j ≠ 0) ∧
    Function.Injective (![2] : Fin 1 → Fin 3) ∧
    specDecode 1 2 8 (![1, 2] : Fin 2 → ZMod 5) ![0] ![2]
        (fun i => extVal 1 2 8 ![1, 2] ![0] (fun _ _ => 3) ((![2] : Fin 1 → Fin 3) i)) =
      some (fun j => (Fin.val j, fun _ => (3 : ZMod 5))) :=
  ⟨by decide, by decide, by decide,
   c1_encode_decode_roundtrip 1 2 8 ![1, 2] ![0]
     (by decide) (by decide) (by decide) (by decide) (by decide) (by decide) (by decide)
     (by decide) (by decide) (by decide) ![2] (by decide) (fun _ _ => 3)⟩
